import Mathlib

/-!
Verification of the category search core of the aladin book-catalog server
(`src/index.ts`): the functions `searchCategories`, `getAllCategories` and the
`get_popular_categories` handler.  The hierarchical category data is a forest
of nodes; each node optionally carries a list of terminal category leaves and
a string-keyed map of child nodes (modelled as an association list in
insertion order, matching `Object.entries`).  JavaScript's locale-aware
`localeCompare` is modelled as an abstract comparator parameter
`cmp : String → String → Ordering`; the lawfulness assumptions required of it
(antisymmetry of orientation and transitivity, guaranteed for `localeCompare`
by ECMA-402) appear as explicit hypotheses, and concrete instantiations use
the codepoint-wise comparator `cmpStr` defined below.  `Array.prototype.sort`
(stable since ES2019) is modelled by the stable `List.mergeSort`.
-/

namespace Aladin

/-- A terminal category entry: `interface CategoryInfo { cid; name; mall }`. -/
structure CategoryInfo where
  cid : String
  name : String
  mall : String
deriving DecidableEq, Repr

mutual
/-- One level of the category hierarchy:
`interface CategoryNode { name; level; children?; categories? }`.
A missing `children`/`categories` key is represented by the empty
collection, which the traversal treats identically. -/
inductive CategoryNode where
  | mk (name : String) (level : Int) (children : Children)
       (categories : List CategoryInfo)

/-- The string-keyed child map of a node, in `Object.entries` insertion
order. The top-level dataset (`data`) has the same shape. -/
inductive Children where
  | nil
  | cons (key : String) (node : CategoryNode) (rest : Children)
end

/-- The annotated intermediate record pushed onto `results` inside
`searchCategories`: the spread leaf plus `level` and `fullPath`
(`name` is explicitly reset to the original leaf name, line 59). -/
structure RankedResult where
  cid : String
  name : String
  mall : String
  level : Nat
  fullPath : String
deriving DecidableEq, Repr

/-- Simple case folding, modelling `String.prototype.toLowerCase`
applied codepoint-wise. -/
def lowerStr (s : String) : String := ⟨s.data.map Char.toLower⟩

/-- `hasSub t s = true` iff the character sequence `t` occurs contiguously
inside `s` (the semantics of JavaScript `s.includes(t)`). -/
def hasSub (t : List Char) : List Char → Bool
  | [] => t.isEmpty
  | c :: s' => t.isPrefixOf (c :: s') || hasSub t s'

/-- `jsIncludes s t` models `s.includes(t)`. -/
def jsIncludes (s t : String) : Bool := hasSub t.data s.data

/-- The match predicate of `searchCategories` (line 54):
`category.name.toLowerCase().includes(searchTerm.toLowerCase())`. -/
def matchesTerm (term : String) (name : String) : Bool :=
  jsIncludes (lowerStr name) (lowerStr term)

/-- The character sequence of the path separator `" > "`. -/
def sepChars : List Char := [' ', '>', ' ']

/-- `Array.prototype.join(' > ')` on character lists: empty list yields
the empty string, otherwise components interleaved with the separator. -/
def joinChars : List (List Char) → List Char
  | [] => []
  | [x] => x
  | x :: xs => x ++ sepChars ++ joinChars xs

/-- `path.join(' > ')` on strings. -/
def joinSep (l : List String) : String := ⟨joinChars (l.map String.data)⟩

/-- Greedy left-to-right splitting of a character sequence on the exact
separator `" > "`, accumulator-style — the semantics of JavaScript
`s.split(' > ')`. -/
def splitSep : List Char → List Char → List (List Char)
  | [], acc => [acc]
  | [c], acc => [acc ++ [c]]
  | [c, d], acc => [acc ++ [c, d]]
  | c :: d :: e :: rest, acc =>
    if c = ' ' ∧ d = '>' ∧ e = ' ' then acc :: splitSep rest []
    else splitSep (d :: e :: rest) (acc ++ [c])

/-- `s.split(' > ')` on strings. -/
def jsSplit (s : String) : List String := (splitSep s.data []).map String.mk

mutual
/-- The inner `traverse(node, path, currentLevel)` of `searchCategories`
(lines 50–71): collect the matching leaves of this node (in stored order),
annotated with the current level and the full path
``path.join(' > ') + ' > ' + category.name``, then descend into the
children in insertion order with the child key appended to the path. -/
def traverse (term : String) : CategoryNode → List String → Nat → List RankedResult
  | .mk _ _ children cats, path, lvl =>
    (cats.filter (fun c => matchesTerm term c.name)).map
      (fun c => { cid := c.cid, name := c.name, mall := c.mall, level := lvl,
                  fullPath := joinSep path ++ " > " ++ c.name })
    ++ traverseKids term children path lvl

/-- The `for (const [childName, childNode] of Object.entries(node.children))`
loop of `traverse` (lines 66–70). -/
def traverseKids (term : String) : Children → List String → Nat → List RankedResult
  | .nil, _, _ => []
  | .cons key node rest, path, lvl =>
    traverse term node (path ++ [key]) (lvl + 1) ++ traverseKids term rest path lvl
end

/-- The root loop of `searchCategories` (lines 73–75): each root is traversed
with `path = [rootName]` and level 1. -/
def searchRaw (term : String) : Children → List RankedResult
  | .nil => []
  | .cons rootName rootNode rest =>
    traverse term rootNode [rootName] 1 ++ searchRaw term rest

/-- `Ordering` as the sign of the number returned by a JavaScript
comparator. -/
def ordToInt : Ordering → Int
  | .lt => -1
  | .eq => 0
  | .gt => 1

/-- The comparator passed to `results.sort` (lines 78–83):
`a.level - b.level` when the levels differ, otherwise
`a.name.localeCompare(b.name)` with the locale comparison abstracted
as `cmp`. -/
def jsComparator (cmp : String → String → Ordering) (a b : RankedResult) : Int :=
  if a.level ≠ b.level then (a.level : Int) - (b.level : Int)
  else ordToInt (cmp a.name b.name)

/-- `a` may stay before `b` under the comparator: the comparison value is
nonpositive. A stable sort with this relation models the ES2019
`Array.prototype.sort`. -/
def rankLE (cmp : String → String → Ordering) (a b : RankedResult) : Bool :=
  jsComparator cmp a b ≤ 0

/-- The sorted annotated result list of `searchCategories`, just before the
final projection (line 86). -/
def searchRanked (cmp : String → String → Ordering) (term : String)
    (data : Children) : List RankedResult :=
  (searchRaw term data).mergeSort (rankLE cmp)

/-- `searchCategories(searchTerm, data)` (lines 47–91): the sorted results
projected to `{ cid, name: fullPath, mall }`. -/
def searchCategories (cmp : String → String → Ordering) (term : String)
    (data : Children) : List CategoryInfo :=
  (searchRanked cmp term data).map (fun r => ⟨r.cid, r.fullPath, r.mall⟩)

mutual
/-- The inner `traverse(node, path)` of `getAllCategories` (lines 97–112):
every leaf, with `name` replaced by the full path, in traversal order. -/
def traverseAll : CategoryNode → List String → List CategoryInfo
  | .mk _ _ children cats, path =>
    cats.map (fun c => ⟨c.cid, joinSep path ++ " > " ++ c.name, c.mall⟩)
    ++ traverseAllKids children path

/-- The child loop of `getAllCategories`' `traverse`. -/
def traverseAllKids : Children → List String → List CategoryInfo
  | .nil, _ => []
  | .cons key node rest, path =>
    traverseAll node (path ++ [key]) ++ traverseAllKids rest path
end

/-- `getAllCategories(data)` (lines 94–119). -/
def getAllCategories : Children → List CategoryInfo
  | .nil => []
  | .cons rootName rootNode rest =>
    traverseAll rootNode [rootName] ++ getAllCategories rest

mutual
/-- Specification-side enumeration of every leaf of a node together with its
full ancestor path (the accumulated `path` at the moment the leaf is
visited), in traversal order. -/
def leaves : CategoryNode → List String → List (List String × CategoryInfo)
  | .mk _ _ children cats, path =>
    cats.map (fun c => (path, c)) ++ leavesKids children path

/-- Child-map part of `leaves`. -/
def leavesKids : Children → List String → List (List String × CategoryInfo)
  | .nil, _ => []
  | .cons key node rest, path =>
    leaves node (path ++ [key]) ++ leavesKids rest path
end

/-- Every leaf of the forest with its ancestor path (root key first). -/
def forestLeaves : Children → List (List String × CategoryInfo)
  | .nil => []
  | .cons rootName rootNode rest =>
    leaves rootNode [rootName] ++ forestLeaves rest

/-- The annotated result built from a path/leaf pair found during traversal. -/
def mkRanked (pc : List String × CategoryInfo) : RankedResult :=
  ⟨pc.2.cid, pc.2.name, pc.2.mall, pc.1.length, joinSep pc.1 ++ " > " ++ pc.2.name⟩

/-- One curated entry of the `get_popular_categories` handler. -/
structure PopularTopic where
  name : String
  searchTerm : String
deriving DecidableEq, Repr

/-- The curated topic list of the `get_popular_categories` handler
(lines 751–772), in stored order. -/
def popularList : List PopularTopic :=
  [⟨"소설", "소설"⟩, ⟨"에세이", "에세이"⟩, ⟨"자기계발", "자기계발"⟩,
   ⟨"경제경영", "경제경영"⟩, ⟨"시/에세이", "시"⟩, ⟨"인문학", "인문학"⟩,
   ⟨"역사", "역사"⟩, ⟨"철학", "철학"⟩, ⟨"과학", "과학"⟩, ⟨"건강", "건강"⟩,
   ⟨"요리", "요리"⟩, ⟨"육아", "육아"⟩, ⟨"교육", "교육"⟩, ⟨"컴퓨터", "컴퓨터"⟩,
   ⟨"외국어", "외국어"⟩, ⟨"여행", "여행"⟩, ⟨"예술", "예술"⟩, ⟨"종교", "종교"⟩,
   ⟨"만화", "만화"⟩, ⟨"아동", "아동"⟩]

/-- The body of the `get_popular_categories` handler (lines 774–787): loop
over the first `limit` curated topics, search each topic's term, skip topics
with no match, and keep the first three ranked results of the others. -/
def getPopularCategories (cmp : String → String → Ordering) (limit : Nat)
    (data : Children) : List (String × List CategoryInfo) :=
  (popularList.take limit).filterMap (fun popular =>
    if (searchCategories cmp popular.searchTerm data).isEmpty then none
    else some (popular.name, (searchCategories cmp popular.searchTerm data).take 3))

/-- Codepoint-wise lexicographic comparison of character sequences; used to
instantiate the abstract locale comparator at concrete inputs. -/
def cmpChars : List Char → List Char → Ordering
  | [], [] => .eq
  | [], _ :: _ => .lt
  | _ :: _, [] => .gt
  | a :: as, b :: bs =>
    if a < b then .lt else if b < a then .gt else cmpChars as bs

/-- Concrete string comparator used by the witnesses. -/
def cmpStr (x y : String) : Ordering := cmpChars x.data y.data

/-- The comparator orientation law: swapping the arguments flips the
result (ECMA-402 guarantees this of `localeCompare`). -/
def CmpOriented (cmp : String → String → Ordering) : Prop :=
  ∀ x y, cmp x y = (cmp y x).swap

/-- Transitivity of the non-strict order induced by the comparator
(ECMA-402 guarantees `localeCompare` induces a total preorder). -/
def CmpLeTrans (cmp : String → String → Ordering) : Prop :=
  ∀ x y z, cmp x y ≠ .gt → cmp y z ≠ .gt → cmp x z ≠ .gt

/-- The sample forest of the specification's scenario 8: root `"Lit"` with
leaf `Fiction` and child `"Novel"` holding leaf `Historical Fiction`. -/
def litData : Children :=
  .cons "Lit"
    (.mk "" 1 (.cons "Novel" (.mk "" 2 .nil [⟨"2", "Historical Fiction", "Book"⟩]) .nil)
      [⟨"1", "Fiction", "Book"⟩])
    .nil

/-! ### Basic facts about the match predicate -/

theorem hasSub_nil_left (s : List Char) : hasSub [] s = true := by
  cases s <;> simp [hasSub, List.isPrefixOf]

theorem matchesTerm_empty_term (name : String) : matchesTerm "" name = true := by
  simp [matchesTerm, jsIncludes, lowerStr, hasSub_nil_left]

theorem string_ne_empty_iff (s : String) : s ≠ "" ↔ s.data ≠ [] := by
  constructor
  · intro h h'
    exact h (String.ext h')
  · intro h h'
    exact h (by simp [h'])

theorem matchesTerm_empty_name (term : String) (h : term ≠ "") :
    matchesTerm term "" = false := by
  have hd : term.data ≠ [] := (string_ne_empty_iff term).mp h
  have he : matchesTerm term "" = (term.data.map Char.toLower).isEmpty := rfl
  rw [he]
  cases hdata : term.data with
  | nil => exact absurd hdata hd
  | cons c cs => rfl

/-! ### Traversal as filtering of the leaf enumeration -/

mutual
theorem traverse_eq_leaves (term : String) :
    ∀ (node : CategoryNode) (path : List String),
    traverse term node path path.length =
      ((leaves node path).filter (fun pc => matchesTerm term pc.2.name)).map mkRanked
  | .mk n lv children cats, path => by
    rw [traverse, leaves]
    rw [List.filter_append, List.map_append, List.filter_map, List.map_map]
    congr 1
    exact traverseKids_eq_leavesKids term children path

theorem traverseKids_eq_leavesKids (term : String) :
    ∀ (kids : Children) (path : List String),
    traverseKids term kids path path.length =
      ((leavesKids kids path).filter (fun pc => matchesTerm term pc.2.name)).map mkRanked
  | .nil, path => by
    rw [traverseKids, leavesKids]
    rfl
  | .cons key node rest, path => by
    rw [traverseKids, leavesKids]
    rw [List.filter_append, List.map_append]
    congr 1
    · have h : (path ++ [key]).length = path.length + 1 := by simp
      rw [← h]
      exact traverse_eq_leaves term node (path ++ [key])
    · exact traverseKids_eq_leavesKids term rest path
end

theorem searchRaw_eq_leaves (term : String) :
    ∀ (data : Children),
    searchRaw term data =
      ((forestLeaves data).filter (fun pc => matchesTerm term pc.2.name)).map mkRanked
  | .nil => by rw [searchRaw, forestLeaves]; rfl
  | .cons rootName rootNode rest => by
    rw [searchRaw, forestLeaves]
    rw [List.filter_append, List.map_append]
    congr 1
    · have h : ([rootName] : List String).length = 1 := rfl
      rw [show (1 : Nat) = ([rootName] : List String).length from rfl]
      exact traverse_eq_leaves term rootNode [rootName]
    · exact searchRaw_eq_leaves term rest

mutual
theorem traverseAll_eq_leaves :
    ∀ (node : CategoryNode) (path : List String),
    traverseAll node path =
      (leaves node path).map (fun pc => ⟨pc.2.cid, joinSep pc.1 ++ " > " ++ pc.2.name, pc.2.mall⟩)
  | .mk n lv children cats, path => by
    rw [traverseAll, leaves]
    rw [List.map_append, List.map_map]
    congr 1
    exact traverseAllKids_eq_leavesKids children path

theorem traverseAllKids_eq_leavesKids :
    ∀ (kids : Children) (path : List String),
    traverseAllKids kids path =
      (leavesKids kids path).map
        (fun pc => ⟨pc.2.cid, joinSep pc.1 ++ " > " ++ pc.2.name, pc.2.mall⟩)
  | .nil, path => by rw [traverseAllKids, leavesKids]; rfl
  | .cons key node rest, path => by
    rw [traverseAllKids, leavesKids]
    rw [List.map_append]
    congr 1
    · exact traverseAll_eq_leaves node (path ++ [key])
    · exact traverseAllKids_eq_leavesKids rest path
end

theorem getAllCategories_eq_leaves :
    ∀ (data : Children),
    getAllCategories data =
      (forestLeaves data).map
        (fun pc => ⟨pc.2.cid, joinSep pc.1 ++ " > " ++ pc.2.name, pc.2.mall⟩)
  | .nil => by rw [getAllCategories, forestLeaves]; rfl
  | .cons rootName rootNode rest => by
    rw [getAllCategories, forestLeaves]
    rw [List.map_append]
    congr 1
    · exact traverseAll_eq_leaves rootNode [rootName]
    · exact getAllCategories_eq_leaves rest

/-! ### Shape of the recorded ancestor paths -/

mutual
theorem leaves_path_shape :
    ∀ (node : CategoryNode) (path : List String),
    ∀ pc ∈ leaves node path, ∃ suf, pc.1 = path ++ suf
  | .mk n lv children cats, path => by
    rw [leaves]
    intro pc hpc
    rcases List.mem_append.mp hpc with h | h
    · obtain ⟨c, _, rfl⟩ := List.mem_map.mp h
      exact ⟨[], by simp⟩
    · exact leavesKids_path_shape children path pc h

theorem leavesKids_path_shape :
    ∀ (kids : Children) (path : List String),
    ∀ pc ∈ leavesKids kids path, ∃ suf, pc.1 = path ++ suf
  | .nil, path => by rw [leavesKids]; intro pc hpc; cases hpc
  | .cons key node rest, path => by
    rw [leavesKids]
    intro pc hpc
    rcases List.mem_append.mp hpc with h | h
    · obtain ⟨suf, hsuf⟩ := leaves_path_shape node (path ++ [key]) pc h
      exact ⟨key :: suf, by simpa using hsuf⟩
    · exact leavesKids_path_shape rest path pc h
end

theorem forestLeaves_path_ne_nil :
    ∀ (data : Children), ∀ pc ∈ forestLeaves data, pc.1 ≠ []
  | .nil => by rw [forestLeaves]; intro pc hpc; cases hpc
  | .cons rootName rootNode rest => by
    rw [forestLeaves]
    intro pc hpc
    rcases List.mem_append.mp hpc with h | h
    · obtain ⟨suf, hsuf⟩ := leaves_path_shape rootNode [rootName] pc h
      simp [hsuf]
    · exact forestLeaves_path_ne_nil rest pc h

/-! ### Joining and splitting on the path separator -/

theorem joinChars_cons_cons (x x' : List Char) (xs : List (List Char)) :
    joinChars (x :: x' :: xs) = x ++ sepChars ++ joinChars (x' :: xs) := rfl

theorem joinChars_append_single :
    ∀ (xs : List (List Char)) (y : List Char), xs ≠ [] →
    joinChars (xs ++ [y]) = joinChars xs ++ sepChars ++ y
  | [], _, h => absurd rfl h
  | [x], y, _ => rfl
  | x :: x' :: xs', y, _ => by
    have ih := joinChars_append_single (x' :: xs') y (by simp)
    show joinChars (x :: x' :: (xs' ++ [y])) = joinChars (x :: x' :: xs') ++ sepChars ++ y
    rw [joinChars_cons_cons x x' (xs' ++ [y]), joinChars_cons_cons x x' xs']
    rw [show x' :: (xs' ++ [y]) = (x' :: xs') ++ [y] from rfl, ih]
    simp [List.append_assoc]

theorem splitSep_step (c : Char) (cs : List Char) (acc : List Char)
    (h : ∀ d e tail, cs = d :: e :: tail → ¬(c = ' ' ∧ d = '>' ∧ e = ' ')) :
    splitSep (c :: cs) acc = splitSep cs (acc ++ [c]) := by
  match cs with
  | [] => rfl
  | [d] =>
    show [acc ++ [c, d]] = [(acc ++ [c]) ++ [d]]
    simp
  | d :: e :: tail =>
    show (if c = ' ' ∧ d = '>' ∧ e = ' ' then acc :: splitSep tail []
          else splitSep (d :: e :: tail) (acc ++ [c])) = splitSep (d :: e :: tail) (acc ++ [c])
    exact if_neg (h d e tail rfl)

theorem splitSep_no_sep :
    ∀ (p : List Char), '>' ∉ p → ∀ acc, splitSep p acc = [acc ++ p]
  | [], _, acc => by rw [splitSep]; simp
  | c :: p', h, acc => by
    have hstep := splitSep_step c p' acc (by
      rintro d e tail hef ⟨h1, h2, h3⟩
      exact h (by simp [hef, h2]))
    rw [hstep, splitSep_no_sep p' (fun hm => h (List.mem_cons_of_mem _ hm)) (acc ++ [c])]
    simp

theorem splitSep_through :
    ∀ (p : List Char), '>' ∉ p → ∀ (acc rest : List Char),
    splitSep (p ++ sepChars ++ rest) acc = (acc ++ p) :: splitSep rest []
  | [], _, acc, rest => by
    show (if (' ' : Char) = ' ' ∧ ('>' : Char) = '>' ∧ (' ' : Char) = ' '
          then acc :: splitSep rest [] else splitSep ('>' :: ' ' :: rest) (acc ++ [' '])) =
        (acc ++ []) :: splitSep rest []
    rw [if_pos ⟨rfl, rfl, rfl⟩]
    simp
  | c :: p', h, acc, rest => by
    have hne : '>' ∉ p' := fun hm => h (List.mem_cons_of_mem _ hm)
    have harr : (c :: p') ++ sepChars ++ rest = c :: (p' ++ sepChars ++ rest) := by simp
    rw [harr]
    rw [splitSep_step c (p' ++ sepChars ++ rest) acc (by
      rintro d e tail hef ⟨h1, h2, h3⟩
      subst h2
      rcases p' with _ | ⟨x, p''⟩
      · have h0 := congrArg List.head? hef
        simp [sepChars] at h0
      · have hx : x = '>' := by
          have h0 := congrArg List.head? hef
          simp at h0
          exact h0
        exact h (by simp [hx]))]
    rw [splitSep_through p' hne (acc ++ [c]) rest]
    simp

theorem splitSep_joinChars :
    ∀ (ps : List (List Char)), ps ≠ [] → (∀ p ∈ ps, '>' ∉ p) →
    splitSep (joinChars ps) [] = ps
  | [], h, _ => absurd rfl h
  | [x], _, hfree => by
    rw [joinChars, splitSep_no_sep x (hfree x (by simp)) []]
    simp
  | x :: y :: tl, _, hfree => by
    rw [joinChars_cons_cons x y tl]
    rw [splitSep_through x (hfree x (by simp)) [] (joinChars (y :: tl))]
    rw [splitSep_joinChars (y :: tl) (by simp) (fun p hp => hfree p (List.mem_cons_of_mem _ hp))]
    simp

theorem string_mk_data (s : String) : String.mk s.data = s := by
  cases s
  rfl

theorem jsSplit_join (P : List String) (name : String) (hP : P ≠ [])
    (hfree : ∀ q ∈ P, '>' ∉ q.data) (hname : '>' ∉ name.data) :
    jsSplit (joinSep P ++ " > " ++ name) = P ++ [name] := by
  have hdata : (joinSep P ++ " > " ++ name).data
      = joinChars (P.map String.data) ++ sepChars ++ name.data := by
    simp only [String.data_append]
    rfl
  have hjoin : joinChars (P.map String.data) ++ sepChars ++ name.data
      = joinChars (P.map String.data ++ [name.data]) := by
    rw [joinChars_append_single (P.map String.data) name.data (by simpa using hP)]
  have hsplit : splitSep (joinChars (P.map String.data ++ [name.data])) []
      = P.map String.data ++ [name.data] := by
    apply splitSep_joinChars
    · simp
    · intro p hp
      rcases List.mem_append.mp hp with h | h
      · obtain ⟨q, hq, rfl⟩ := List.mem_map.mp h
        exact hfree q hq
      · simp only [List.mem_singleton] at h
        exact h ▸ hname
  show (splitSep (joinSep P ++ " > " ++ name).data []).map String.mk = _
  rw [hdata, hjoin, hsplit]
  rw [List.map_append, List.map_map]
  rw [show (String.mk ∘ String.data) = (id : String → String) from funext string_mk_data,
    List.map_id]
  simp [string_mk_data]

/-! ### The sort comparator -/

/-- The propositional ordering the comparator induces on annotated results:
strictly smaller level, or equal level and comparator-nonpositive names. -/
def RankedLE (cmp : String → String → Ordering) (a b : RankedResult) : Prop :=
  a.level < b.level ∨ (a.level = b.level ∧ cmp a.name b.name ≠ .gt)

theorem rankLE_iff (cmp : String → String → Ordering) (a b : RankedResult) :
    rankLE cmp a b = true ↔ RankedLE cmp a b := by
  unfold rankLE jsComparator RankedLE
  by_cases h : a.level = b.level
  · rw [if_neg (by simpa using h)]
    cases hc : cmp a.name b.name <;> simp [ordToInt, h, hc]
  · rw [if_pos (by simpa using h)]
    simp only [decide_eq_true_eq]
    constructor
    · intro hle
      exact Or.inl (by omega)
    · rintro (hlt | ⟨heq, _⟩)
      · omega
      · exact absurd heq h

theorem rankLE_total (cmp : String → String → Ordering) (h1 : CmpOriented cmp) :
    ∀ a b, rankLE cmp a b || rankLE cmp b a := by
  intro a b
  rw [Bool.or_eq_true, rankLE_iff, rankLE_iff]
  unfold RankedLE
  by_cases h : a.level = b.level
  · by_cases hg : cmp a.name b.name = .gt
    · refine Or.inr (Or.inr ⟨h.symm, ?_⟩)
      intro hg'
      have := h1 a.name b.name
      rw [hg', Ordering.swap] at this
      simp [hg] at this
    · exact Or.inl (Or.inr ⟨h, hg⟩)
  · rcases Nat.lt_or_ge a.level b.level with hlt | hge
    · exact Or.inl (Or.inl hlt)
    · exact Or.inr (Or.inl (by omega))

theorem rankLE_trans (cmp : String → String → Ordering) (h2 : CmpLeTrans cmp) :
    ∀ a b c, rankLE cmp a b → rankLE cmp b c → rankLE cmp a c := by
  intro a b c hab hbc
  rw [rankLE_iff] at hab hbc ⊢
  unfold RankedLE at hab hbc ⊢
  rcases hab with hab | ⟨hab, hnab⟩ <;> rcases hbc with hbc | ⟨hbc, hnbc⟩
  · exact Or.inl (by omega)
  · exact Or.inl (by omega)
  · exact Or.inl (by omega)
  · exact Or.inr ⟨by omega, h2 _ _ _ hnab hnbc⟩

theorem searchRanked_perm (cmp : String → String → Ordering) (term : String)
    (data : Children) : (searchRanked cmp term data).Perm (searchRaw term data) :=
  List.mergeSort_perm _ _

theorem searchRanked_eq_of_sorted (cmp : String → String → Ordering) (term : String)
    (data : Children) (h : (searchRaw term data).Pairwise (fun a b => rankLE cmp a b = true)) :
    searchRanked cmp term data = searchRaw term data :=
  List.mergeSort_of_sorted h

/-! ### Lawfulness of the concrete codepoint comparator -/

theorem cmpChars_swap : ∀ x y, cmpChars x y = (cmpChars y x).swap
  | [], [] => rfl
  | [], _ :: _ => rfl
  | _ :: _, [] => rfl
  | a :: as, b :: bs => by
    show (if a < b then Ordering.lt else if b < a then Ordering.gt else cmpChars as bs)
        = (if b < a then Ordering.lt else if a < b then Ordering.gt else cmpChars bs as).swap
    rcases lt_trichotomy a b with h | h | h
    · simp only [if_pos h, if_neg (lt_asymm h)]
      rfl
    · subst h
      simp only [if_neg (lt_irrefl a)]
      exact cmpChars_swap as bs
    · simp only [if_pos h, if_neg (lt_asymm h)]
      rfl

theorem cmpChars_le_trans :
    ∀ x y z, cmpChars x y ≠ .gt → cmpChars y z ≠ .gt → cmpChars x z ≠ .gt
  | [], _, [], _, _ => by rw [cmpChars]; simp
  | [], _, _ :: _, _, _ => by rw [cmpChars]; simp
  | a :: as, [], c, hxy, _ => absurd (by rw [cmpChars]) hxy
  | a :: as, b :: bs, [], _, hyz => absurd (by rw [cmpChars]) hyz
  | a :: as, b :: bs, c :: cs, hxy, hyz => by
    have hxy' : (if a < b then Ordering.lt else if b < a then Ordering.gt else cmpChars as bs)
        ≠ Ordering.gt := hxy
    have hyz' : (if b < c then Ordering.lt else if c < b then Ordering.gt else cmpChars bs cs)
        ≠ Ordering.gt := hyz
    show (if a < c then Ordering.lt else if c < a then Ordering.gt else cmpChars as cs)
        ≠ Ordering.gt
    by_cases hba : b < a
    · simp only [if_neg (lt_asymm hba), if_pos hba] at hxy'
      exact absurd rfl hxy'
    · by_cases hab : a < b
      · by_cases hcb : c < b
        · simp only [if_neg (lt_asymm hcb), if_pos hcb] at hyz'
          exact absurd rfl hyz'
        · by_cases hbc : b < c
          · simp only [if_pos (lt_trans hab hbc)]
            simp
          · have hbceq : b = c := le_antisymm (not_lt.mp hcb) (not_lt.mp hbc)
            subst hbceq
            simp only [if_pos hab]
            simp
      · have habeq : a = b := le_antisymm (not_lt.mp hba) (not_lt.mp hab)
        subst habeq
        simp only [if_neg (lt_irrefl a)] at hxy'
        by_cases hac : a < c
        · simp only [if_pos hac]
          simp
        · by_cases hca : c < a
          · simp only [if_neg hac, if_pos hca] at hyz'
            exact absurd rfl hyz'
          · simp only [if_neg hac, if_neg hca] at hyz' ⊢
            exact cmpChars_le_trans as bs cs hxy' hyz'

theorem cmpStr_oriented : CmpOriented cmpStr := by
  intro x y
  exact cmpChars_swap x.data y.data

theorem cmpStr_le_trans : CmpLeTrans cmpStr := by
  intro x y z
  exact cmpChars_le_trans x.data y.data z.data

/-! ### Shared sortedness helper -/

theorem searchRanked_sorted (cmp : String → String → Ordering)
    (h1 : CmpOriented cmp) (h2 : CmpLeTrans cmp) (term : String) (data : Children) :
    (searchRanked cmp term data).Pairwise (RankedLE cmp) := by
  have hp : ((searchRaw term data).mergeSort (rankLE cmp)).Pairwise
      (fun a b => rankLE cmp a b = true) :=
    List.sorted_mergeSort (rankLE_trans cmp h2) (rankLE_total cmp h1) (searchRaw term data)
  exact hp.imp (fun hab => (rankLE_iff cmp _ _).mp hab)

theorem mem_searchRaw_of_mem_ranked {cmp : String → String → Ordering} {term : String}
    {data : Children} {r : RankedResult} (hr : r ∈ searchRanked cmp term data) :
    r ∈ searchRaw term data :=
  (searchRanked_perm cmp term data).mem_iff.mp hr

/-! ### The claims -/

/-- C3: a leaf occurrence appears in the output of `searchCategories` iff its
own short name contains the search term as a substring after lower-casing
both sides; every result satisfies the predicate, and the result sequence is
a permutation of the matching entries of the leaf enumeration, so every
matching leaf occurrence is returned exactly once and no other leaf is ever
returned. -/
theorem C3_match_iff (cmp : String → String → Ordering) (term : String) (data : Children) :
    (∀ r ∈ searchRanked cmp term data, matchesTerm term r.name = true) ∧
    (searchRanked cmp term data).Perm
      (((forestLeaves data).filter (fun pc => matchesTerm term pc.2.name)).map mkRanked) := by
  constructor
  · intro r hr
    have hr' : r ∈ searchRaw term data := mem_searchRaw_of_mem_ranked hr
    rw [searchRaw_eq_leaves] at hr'
    obtain ⟨pc, hpc, rfl⟩ := List.mem_map.mp hr'
    have hm := List.of_mem_filter hpc
    exact hm
  · rw [← searchRaw_eq_leaves]
    exact searchRanked_perm cmp term data

/-- C4: for a non-empty search term the search total function excludes every
leaf whose name is empty: each returned result keeps a non-empty original
short name (a leaf with empty name cannot contain a non-empty term). -/
theorem C4_empty_name_excluded (cmp : String → String → Ordering) (term : String)
    (data : Children) (h : term ≠ "") :
    ∀ r ∈ searchRanked cmp term data, r.name ≠ "" := by
  intro r hr
  have hr' : r ∈ searchRaw term data := mem_searchRaw_of_mem_ranked hr
  rw [searchRaw_eq_leaves] at hr'
  obtain ⟨pc, hpc, rfl⟩ := List.mem_map.mp hr'
  have hm := List.of_mem_filter hpc
  intro hname
  have hfalse : matchesTerm term pc.2.name = false := by
    rw [show pc.2.name = "" from hname]
    exact matchesTerm_empty_name term h
  rw [hfalse] at hm
  cases hm

/-- C4 witness: the hypotheses hold at the concrete term `"fiction"` and a
concrete member of the ranked output on the sample forest. -/
theorem C4_empty_name_excluded_witness :
    (⟨"1", "Fiction", "Book", 1, "Lit > Fiction"⟩ : RankedResult).name ≠ "" :=
  C4_empty_name_excluded cmpStr "fiction" litData (by decide)
    ⟨"1", "Fiction", "Book", 1, "Lit > Fiction"⟩ (by
      unfold searchRanked
      rw [List.mem_mergeSort]
      decide)

/-- C7: on the concrete two-level sample forest, searching `"fiction"`
returns exactly the two expected full-path results, the level-1 match
first — for every locale comparator. -/
theorem C7_sample_scenario (cmp : String → String → Ordering) :
    searchCategories cmp "fiction" litData =
      [⟨"1", "Lit > Fiction", "Book"⟩, ⟨"2", "Lit > Novel > Historical Fiction", "Book"⟩] := by
  have hraw : searchRaw "fiction" litData =
      [⟨"1", "Fiction", "Book", 1, "Lit > Fiction"⟩,
       ⟨"2", "Historical Fiction", "Book", 2, "Lit > Novel > Historical Fiction"⟩] := by
    decide
  have hsorted : (searchRaw "fiction" litData).Pairwise
      (fun a b => rankLE cmp a b = true) := by
    rw [hraw]
    refine List.Pairwise.cons ?_ (List.Pairwise.cons (by simp) List.Pairwise.nil)
    intro b hb
    simp only [List.mem_singleton] at hb
    subst hb
    rw [rankLE_iff]
    exact Or.inl (by decide)
  have heq := searchRanked_eq_of_sorted cmp "fiction" litData hsorted
  unfold searchCategories
  rw [heq, hraw]
  rfl

/-- C8: when no leaf of the forest matches the term, `searchCategories`
returns the empty sequence (the function is total, so absence of matches is
represented structurally, never as an exception). -/
theorem C8_no_match_empty (cmp : String → String → Ordering) (term : String)
    (data : Children)
    (h : ∀ pc ∈ forestLeaves data, matchesTerm term pc.2.name = false) :
    searchCategories cmp term data = [] := by
  have hraw : searchRaw term data = [] := by
    rw [searchRaw_eq_leaves]
    rw [List.filter_eq_nil_iff.mpr (fun pc hpc => by simp [h pc hpc])]
    rfl
  unfold searchCategories searchRanked
  rw [hraw, List.mergeSort_nil]
  rfl

/-- C8 witness: no leaf of the sample forest matches `"zzz"`, and the search
returns the empty sequence there. -/
theorem C8_no_match_empty_witness : searchCategories cmpStr "zzz" litData = [] :=
  C8_no_match_empty cmpStr "zzz" litData (by decide)

/-- C9: each returned result carries the `cid` and `mall` of the matched
leaf unchanged, and only the `name` field is replaced — by the full
hierarchical path ending in the leaf's own name. -/
theorem C9_cid_mall_preserved (cmp : String → String → Ordering) (term : String)
    (data : Children) :
    ∀ r ∈ searchCategories cmp term data,
      ∃ pc ∈ forestLeaves data,
        matchesTerm term pc.2.name = true ∧
        r.cid = pc.2.cid ∧ r.mall = pc.2.mall ∧
        r.name = joinSep pc.1 ++ " > " ++ pc.2.name := by
  intro r hr
  unfold searchCategories at hr
  obtain ⟨rr, hrr, rfl⟩ := List.mem_map.mp hr
  have hrr' : rr ∈ searchRaw term data := mem_searchRaw_of_mem_ranked hrr
  rw [searchRaw_eq_leaves] at hrr'
  obtain ⟨pc, hpc, rfl⟩ := List.mem_map.mp hrr'
  have hm := List.of_mem_filter hpc
  exact ⟨pc, List.mem_of_mem_filter hpc, hm, rfl, rfl, rfl⟩

/-- C9 witness: the first result of the sample search is the leaf with
cid `"1"` and mall `"Book"`, name replaced by its full path. -/
theorem C9_cid_mall_preserved_witness :
    ∃ pc ∈ forestLeaves litData,
      matchesTerm "fiction" pc.2.name = true ∧
      (⟨"1", "Lit > Fiction", "Book"⟩ : CategoryInfo).cid = pc.2.cid ∧
      (⟨"1", "Lit > Fiction", "Book"⟩ : CategoryInfo).mall = pc.2.mall ∧
      (⟨"1", "Lit > Fiction", "Book"⟩ : CategoryInfo).name = joinSep pc.1 ++ " > " ++ pc.2.name :=
  C9_cid_mall_preserved cmpStr "fiction" litData ⟨"1", "Lit > Fiction", "Book"⟩ (by
    unfold searchCategories searchRanked
    rw [List.mem_map]
    refine ⟨⟨"1", "Fiction", "Book", 1, "Lit > Fiction"⟩, ?_, rfl⟩
    rw [List.mem_mergeSort]
    decide)

/-- C1: for every term and forest, and every lawful locale comparator, the
ranked result sequence is sorted with primary key `level` ascending and
secondary key the original leaf name under the comparator, and the sort is
stable: two results with equal level and comparator-equal names that appear
as a pair in traversal encounter order appear as a pair in the same order in
the sorted output. -/
theorem C1_sorted_stable (cmp : String → String → Ordering) (term : String)
    (data : Children) (h1 : CmpOriented cmp) (h2 : CmpLeTrans cmp) :
    (searchRanked cmp term data).Pairwise (RankedLE cmp) ∧
    (∀ a b : RankedResult, a.level = b.level → cmp a.name b.name = Ordering.eq →
      [a, b].Sublist (searchRaw term data) →
      [a, b].Sublist (searchRanked cmp term data)) := by
  constructor
  · exact searchRanked_sorted cmp h1 h2 term data
  · intro a b hl hn hsub
    apply List.pair_sublist_mergeSort (rankLE_trans cmp h2) (rankLE_total cmp h1) ?_ hsub
    rw [rankLE_iff]
    exact Or.inr ⟨hl, by simp [hn]⟩

/-- C1 witness: the sortedness and stability conclusions hold at the
concrete codepoint comparator, which satisfies both lawfulness
hypotheses. -/
theorem C1_sorted_stable_witness :
    (searchRanked cmpStr "fiction" litData).Pairwise (RankedLE cmpStr) ∧
    (∀ a b : RankedResult, a.level = b.level → cmpStr a.name b.name = Ordering.eq →
      [a, b].Sublist (searchRaw "fiction" litData) →
      [a, b].Sublist (searchRanked cmpStr "fiction" litData)) :=
  C1_sorted_stable cmpStr "fiction" litData cmpStr_oriented cmpStr_le_trans

/-- C2 (amended): every ranked result's full path is the ancestor name list
(root key first, then the traversed child keys) joined by `" > "`, followed
by `" > "` and the leaf's original short name, with the ancestor list's
length equal to the result's level; when no ancestor name and not the leaf
name contains the character `'>'`, splitting the full path on `" > "` yields
exactly `level + 1` segments, the last being the leaf's short name. -/
theorem C2_fullpath (cmp : String → String → Ordering) (term : String)
    (data : Children) :
    ∀ r ∈ searchRanked cmp term data,
      ∃ P : List String, P ≠ [] ∧ r.level = P.length ∧
        r.fullPath = joinSep P ++ " > " ++ r.name ∧
        ((∀ q ∈ P, '>' ∉ q.data) → '>' ∉ r.name.data →
          jsSplit r.fullPath = P ++ [r.name] ∧
          (jsSplit r.fullPath).length = r.level + 1 ∧
          (jsSplit r.fullPath).getLast? = some r.name) := by
  intro r hr
  have hr' : r ∈ searchRaw term data := mem_searchRaw_of_mem_ranked hr
  rw [searchRaw_eq_leaves] at hr'
  obtain ⟨pc, hpc, rfl⟩ := List.mem_map.mp hr'
  have hne : pc.1 ≠ [] :=
    forestLeaves_path_ne_nil data pc (List.mem_of_mem_filter hpc)
  refine ⟨pc.1, hne, rfl, rfl, ?_⟩
  intro hfree hname
  have hj : jsSplit ((mkRanked pc).fullPath) = pc.1 ++ [pc.2.name] :=
    jsSplit_join pc.1 pc.2.name hne hfree hname
  refine ⟨hj, ?_, ?_⟩
  · rw [hj]
    simp [mkRanked]
  · rw [hj]
    exact List.getLast?_concat _

/-- C2 witness: the amended statement applied to the single result of a
concrete search, with the separator-free hypotheses discharged. -/
theorem C2_fullpath_witness :
    ∃ P : List String, P ≠ [] ∧
      (⟨"1", "Fiction", "Book", 1, "Lit > Fiction"⟩ : RankedResult).level = P.length ∧
      (⟨"1", "Fiction", "Book", 1, "Lit > Fiction"⟩ : RankedResult).fullPath
        = joinSep P ++ " > " ++ (⟨"1", "Fiction", "Book", 1, "Lit > Fiction"⟩ : RankedResult).name ∧
      ((∀ q ∈ P, '>' ∉ q.data) →
        '>' ∉ (⟨"1", "Fiction", "Book", 1, "Lit > Fiction"⟩ : RankedResult).name.data →
        jsSplit (⟨"1", "Fiction", "Book", 1, "Lit > Fiction"⟩ : RankedResult).fullPath
          = P ++ [(⟨"1", "Fiction", "Book", 1, "Lit > Fiction"⟩ : RankedResult).name] ∧
        (jsSplit (⟨"1", "Fiction", "Book", 1, "Lit > Fiction"⟩ : RankedResult).fullPath).length
          = (⟨"1", "Fiction", "Book", 1, "Lit > Fiction"⟩ : RankedResult).level + 1 ∧
        (jsSplit (⟨"1", "Fiction", "Book", 1, "Lit > Fiction"⟩ : RankedResult).fullPath).getLast?
          = some (⟨"1", "Fiction", "Book", 1, "Lit > Fiction"⟩ : RankedResult).name) :=
  C2_fullpath cmpStr "fiction" litData ⟨"1", "Fiction", "Book", 1, "Lit > Fiction"⟩ (by
    unfold searchRanked
    rw [List.mem_mergeSort]
    decide)

/-- A forest whose single leaf name contains the path separator itself. -/
def cexData : Children := .cons "R" (.mk "" 1 .nil [⟨"9", "A > B", "M"⟩]) .nil

/-- C2 counterexample: on a leaf named `"A > B"` at level 1, splitting the
produced full path `"R > A > B"` on `" > "` yields 3 segments, not
`level + 1 = 2`, and the last segment `"B"` is not the leaf's short name
`"A > B"` — refuting the unconditional split clause of the claim. -/
theorem C2_fullpath_counterexample :
    (searchRanked cmpStr "a" cexData).map
        (fun r => ((jsSplit r.fullPath).length, r.level + 1)) = [(3, 2)] ∧
    (3 : Nat) ≠ 2 ∧
    (searchRanked cmpStr "a" cexData).map
        (fun r => ((jsSplit r.fullPath).getLast?, r.name)) = [(some "B", "A > B")] ∧
    some ("B" : String) ≠ some "A > B" := by
  have hraw : searchRaw "a" cexData = [⟨"9", "A > B", "M", 1, "R > A > B"⟩] := by
    decide
  have h1 : searchRanked cmpStr "a" cexData = [⟨"9", "A > B", "M", 1, "R > A > B"⟩] := by
    unfold searchRanked
    rw [hraw, List.mergeSort_singleton]
  refine ⟨?_, by decide, ?_, by decide⟩
  · rw [h1]
    decide
  · rw [h1]
    decide

/-- C5: searching with the empty term returns every leaf of the forest — the
output is a permutation of the full enumeration `getAllCategories` (hence
the counts agree), and the ranked sequence is still sorted by the
level-then-name rule. -/
theorem C5_empty_term_universal (cmp : String → String → Ordering) (data : Children)
    (h1 : CmpOriented cmp) (h2 : CmpLeTrans cmp) :
    (searchCategories cmp "" data).Perm (getAllCategories data) ∧
    (searchCategories cmp "" data).length = (getAllCategories data).length ∧
    (searchRanked cmp "" data).Pairwise (RankedLE cmp) := by
  have hfilter : (forestLeaves data).filter (fun pc => matchesTerm "" pc.2.name)
      = forestLeaves data :=
    List.filter_eq_self.mpr (fun pc _ => matchesTerm_empty_term pc.2.name)
  have hraw : searchRaw "" data = (forestLeaves data).map mkRanked := by
    rw [searchRaw_eq_leaves, hfilter]
  have hall : getAllCategories data
      = (searchRaw "" data).map (fun r => (⟨r.cid, r.fullPath, r.mall⟩ : CategoryInfo)) := by
    rw [getAllCategories_eq_leaves, hraw, List.map_map]
    rfl
  have hperm : (searchCategories cmp "" data).Perm (getAllCategories data) := by
    unfold searchCategories
    rw [hall]
    exact (searchRanked_perm cmp "" data).map _
  exact ⟨hperm, hperm.length_eq, searchRanked_sorted cmp h1 h2 "" data⟩

/-- C5 witness: the conclusions at the concrete codepoint comparator on the
sample forest. -/
theorem C5_empty_term_universal_witness :
    (searchCategories cmpStr "" litData).Perm (getAllCategories litData) ∧
    (searchCategories cmpStr "" litData).length = (getAllCategories litData).length ∧
    (searchRanked cmpStr "" litData).Pairwise (RankedLE cmpStr) :=
  C5_empty_term_universal cmpStr litData cmpStr_oriented cmpStr_le_trans

/-- C6: the popular-category selector processes the curated list in stored
order capped to the first `limit` topics; every emitted entry comes from a
processed topic whose search is non-empty and carries exactly the first 3
ranked results of that topic's search (all of them when fewer than 3 match);
the emitted topic names form a sublist (order preserved) of the processed
topic names; and every processed topic with a non-empty search is emitted. -/
theorem C6_popular_selector (cmp : String → String → Ordering) (limit : Nat)
    (data : Children) :
    (∀ pr ∈ getPopularCategories cmp limit data,
      ∃ t ∈ popularList.take limit,
        pr.1 = t.name ∧
        searchCategories cmp t.searchTerm data ≠ [] ∧
        pr.2 = (searchCategories cmp t.searchTerm data).take 3 ∧
        pr.2.length = min 3 (searchCategories cmp t.searchTerm data).length) ∧
    ((getPopularCategories cmp limit data).map Prod.fst).Sublist
      ((popularList.take limit).map PopularTopic.name) ∧
    (∀ t ∈ popularList.take limit, searchCategories cmp t.searchTerm data ≠ [] →
      (t.name, (searchCategories cmp t.searchTerm data).take 3)
        ∈ getPopularCategories cmp limit data) := by
  refine ⟨?_, ?_, ?_⟩
  · intro pr hpr
    unfold getPopularCategories at hpr
    obtain ⟨t, ht, hsome⟩ := List.mem_filterMap.mp hpr
    by_cases hempty : (searchCategories cmp t.searchTerm data).isEmpty
    · rw [if_pos hempty] at hsome
      cases hsome
    · rw [if_neg hempty] at hsome
      have hne : searchCategories cmp t.searchTerm data ≠ [] := by
        rw [← List.isEmpty_eq_false]
        exact Bool.not_eq_true _ ▸ (by simpa using hempty)
      have hinj := Option.some.inj hsome
      subst hinj
      exact ⟨t, ht, rfl, hne, rfl, List.length_take _ _⟩
  · unfold getPopularCategories
    generalize popularList.take limit = l
    induction l with
    | nil => simp
    | cons t rest ih =>
      rw [List.filterMap_cons]
      by_cases hempty : (searchCategories cmp t.searchTerm data).isEmpty
      · rw [if_pos hempty]
        exact (List.map_cons _ _ _ ▸ ih.cons t.name)
      · rw [if_neg hempty]
        exact (List.map_cons _ _ _ ▸ ih.cons₂ t.name)
  · intro t ht hne
    unfold getPopularCategories
    apply List.mem_filterMap.mpr
    refine ⟨t, ht, ?_⟩
    rw [if_neg (by rw [List.isEmpty_eq_false.mpr hne]; exact Bool.false_ne_true)]

/-- C10: the curated list has exactly 20 entries; for every limit of at
least 20 the selector output is identical to the output at limit 20; and
the output never contains more than `min limit 20` topics. -/
theorem C10_limit_cap :
    popularList.length = 20 ∧
    (∀ (cmp : String → String → Ordering) (data : Children) (limit : Nat),
      20 ≤ limit →
      getPopularCategories cmp limit data = getPopularCategories cmp 20 data) ∧
    (∀ (cmp : String → String → Ordering) (data : Children) (limit : Nat),
      (getPopularCategories cmp limit data).length ≤ min limit 20) := by
  have hlen : popularList.length = 20 := rfl
  refine ⟨hlen, ?_, ?_⟩
  · intro cmp data limit h
    unfold getPopularCategories
    rw [List.take_of_length_le (by rw [hlen]; exact h),
      List.take_of_length_le (by rw [hlen])]
  · intro cmp data limit
    calc (getPopularCategories cmp limit data).length
        ≤ (popularList.take limit).length := List.length_filterMap_le _ _
      _ = min limit popularList.length := List.length_take _ _
      _ = min limit 20 := by rw [hlen]

/-- C10 witness: a limit of 25 yields the same output as a limit of 20 on
the sample forest. -/
theorem C10_limit_cap_witness :
    getPopularCategories cmpStr 25 litData = getPopularCategories cmpStr 20 litData :=
  C10_limit_cap.2.1 cmpStr litData 25 (by decide)

end Aladin
